import Mathlib

/-!
# Verification of the zo market-maker core

A shallow embedding of the market-maker's core algorithms, translated from
the Rust sources:

* `src/rust/zo/src/mm/quoter.rs`    — tick/lot aligned quote generation
* `src/rust/zo/src/orders.rs`       — order diffing and atomic submission
* `src/rust/zo/src/fair_price.rs`   — median-offset fair price calculator
* `src/rust/nord/src/orderbook.rs`  — orderbook sides and mid-price emission
* `src/rust/nord/src/utils.rs`      — wire scaling to u64
* `src/rust/zo/src/mm/position.rs`  — position tracker / quoting context

Modelling conventions: `rust_decimal::Decimal` and `f64` values are embedded
as `ℚ` (the algorithms use only field operations, comparisons, floor and
ceil); `u64`/`usize` become `ℕ`.  `BTreeMap` sides become association lists
sorted strictly by key.  Fallible functions return `Option`/`Except`, and
effectful submission paths are embedded in writer style, returning the list
of submitted chunks alongside the result.
-/

namespace Zo

/-- Order side, from `nord::Side`. -/
inductive Side
  | Bid
  | Ask
deriving DecidableEq, Repr

/-- A desired quote, from `zo/src/types.rs` (`Quote`). -/
structure Quote where
  side : Side
  price : ℚ
  size : ℚ
deriving DecidableEq, Repr

/-- Best bid / best ask, from `nord/src/orderbook.rs` (`BBO`).
Both fields are plain `f64` in the source (modelled as `ℚ`). -/
structure BBO where
  best_bid : ℚ
  best_ask : ℚ
deriving DecidableEq, Repr

/-- Position snapshot, from `zo/src/mm/position.rs` (`PositionState`). -/
structure PositionState where
  size_base : ℚ
  size_usd : ℚ
  is_long : Bool
  is_close_mode : Bool
deriving DecidableEq, Repr

/-- Quoting context, from `zo/src/mm/position.rs` (`QuotingContext`). -/
structure QuotingContext where
  fair_price : ℚ
  position_state : PositionState
  allowed_sides : List Side
deriving DecidableEq, Repr

/-! ## Quoter (`zo/src/mm/quoter.rs`) -/

/-- Rounding direction for tick alignment (`RoundMode`). -/
inductive RoundMode
  | Floor
  | Ceil
deriving DecidableEq, Repr

/-- The quoter's parameters (`Quoter`).  In the source `tick_size` and
`lot_size` are constructed as `Decimal::new(1, price_decimals)` i.e.
`10^-decimals`; here they are arbitrary rationals, with positivity taken as
a hypothesis where needed. -/
structure Quoter where
  tick_size : ℚ
  lot_size : ℚ
  spread_bps : ℚ
  take_profit_bps : ℚ
  order_size_usd : ℚ
deriving DecidableEq, Repr

/-- Embedding of `Quoter::align_price`: align a price to the tick size. -/
def Quoter.align_price (q : Quoter) (price : ℚ) (mode : RoundMode) : ℚ :=
  let ticks := price / q.tick_size
  let aligned : ℤ :=
    match mode with
    | RoundMode.Floor => ⌊ticks⌋
    | RoundMode.Ceil => ⌈ticks⌉
  (aligned : ℚ) * q.tick_size

/-- Embedding of `Quoter::align_size`: align a size to the lot size (always rounds down). -/
def Quoter.align_size (q : Quoter) (size : ℚ) : ℚ :=
  let lots : ℤ := ⌊size / q.lot_size⌋
  (lots : ℚ) * q.lot_size

/-- Embedding of `Quoter::usd_to_size`: convert a USD notional to base-asset size. -/
def Quoter.usd_to_size (q : Quoter) (fair_price : ℚ) : ℚ :=
  if fair_price = 0 then 0
  else q.align_size (q.order_size_usd / fair_price)

/-- The spread selected by `get_quotes`: `fair * bps_used / 10000`, with
`bps_used = take_profit_bps` in close mode and `spread_bps` otherwise. -/
def Quoter.spread_amount (q : Quoter) (ctx : QuotingContext) : ℚ :=
  ctx.fair_price *
    (if ctx.position_state.is_close_mode then q.take_profit_bps else q.spread_bps) / 10000

/-- The size selected by `get_quotes`: position size in close mode, USD
notional otherwise. -/
def Quoter.quote_size (q : Quoter) (ctx : QuotingContext) : ℚ :=
  if ctx.position_state.is_close_mode then q.align_size |ctx.position_state.size_base|
  else q.usd_to_size ctx.fair_price

/-- The bid price computed inside `get_quotes`: floor-aligned
`fair - spread`, clamped one tick below the best ask when it would cross. -/
def Quoter.bid_price (q : Quoter) (ctx : QuotingContext) (bbo : Option BBO) : ℚ :=
  let bid0 := q.align_price (ctx.fair_price - q.spread_amount ctx) RoundMode.Floor
  match bbo with
  | some b =>
      if bid0 ≥ b.best_ask then q.align_price (b.best_ask - q.tick_size) RoundMode.Floor
      else bid0
  | none => bid0

/-- The ask price computed inside `get_quotes`: ceil-aligned
`fair + spread`, clamped one tick above the best bid when it would cross. -/
def Quoter.ask_price (q : Quoter) (ctx : QuotingContext) (bbo : Option BBO) : ℚ :=
  let ask0 := q.align_price (ctx.fair_price + q.spread_amount ctx) RoundMode.Ceil
  match bbo with
  | some b =>
      if ask0 ≤ b.best_bid then q.align_price (b.best_bid + q.tick_size) RoundMode.Ceil
      else ask0
  | none => ask0

/-- Embedding of `Quoter::get_quotes`: generate quotes for the given context, clamped to
the BBO.  Faithful to the source: spread selection by close mode, size from
position (close mode) or USD notional, bid block then ask block, each pushed
only when its side is allowed and its price positive. -/
def Quoter.get_quotes (q : Quoter) (ctx : QuotingContext) (bbo : Option BBO) : List Quote :=
  let size := q.quote_size ctx
  if size ≤ 0 then []
  else
    let bid_quotes :=
      if Side.Bid ∈ ctx.allowed_sides then
        if q.bid_price ctx bbo > 0 then
          [{ side := Side.Bid, price := q.bid_price ctx bbo, size := size }]
        else []
      else []
    let ask_quotes :=
      if Side.Ask ∈ ctx.allowed_sides then
        if q.ask_price ctx bbo > 0 then
          [{ side := Side.Ask, price := q.ask_price ctx bbo, size := size }]
        else []
      else []
    bid_quotes ++ ask_quotes

/-- Any member of `get_quotes` is the bid quote or the ask quote. -/
theorem mem_get_quotes (q : Quoter) (ctx : QuotingContext) (bbo : Option BBO)
    (qt : Quote) (hqt : qt ∈ q.get_quotes ctx bbo) :
    qt = { side := Side.Bid, price := q.bid_price ctx bbo, size := q.quote_size ctx } ∨
    qt = { side := Side.Ask, price := q.ask_price ctx bbo, size := q.quote_size ctx } := by
  simp only [Quoter.get_quotes] at hqt
  split at hqt
  · simp at hqt
  · rcases List.mem_append.mp hqt with h | h
    · split at h
      · split at h
        · exact Or.inl (List.mem_singleton.mp h)
        · simp at h
      · simp at h
    · split at h
      · split at h
        · exact Or.inr (List.mem_singleton.mp h)
        · simp at h
      · simp at h

/-- Property: `align_price` always lands on an integer multiple of the tick. -/
theorem align_price_multiple (q : Quoter) (price : ℚ) (mode : RoundMode) :
    ∃ k : ℤ, q.align_price price mode = k * q.tick_size := by
  cases mode <;> exact ⟨_, rfl⟩

/-- Property: `align_size` always lands on an integer multiple of the lot. -/
theorem align_size_multiple (q : Quoter) (size : ℚ) :
    ∃ k : ℤ, q.align_size size = k * q.lot_size :=
  ⟨_, rfl⟩

/-- A floor-aligned price never exceeds its input (needs a positive tick). -/
theorem align_price_floor_le (q : Quoter) (price : ℚ) (h : 0 < q.tick_size) :
    q.align_price price RoundMode.Floor ≤ price := by
  have h1 : ((⌊price / q.tick_size⌋ : ℚ)) ≤ price / q.tick_size := Int.floor_le _
  have h2 := mul_le_mul_of_nonneg_right h1 (le_of_lt h)
  calc q.align_price price RoundMode.Floor
      = (⌊price / q.tick_size⌋ : ℚ) * q.tick_size := rfl
    _ ≤ price / q.tick_size * q.tick_size := h2
    _ = price := div_mul_cancel₀ price (ne_of_gt h)

/-- A ceil-aligned price is never below its input (needs a positive tick). -/
theorem le_align_price_ceil (q : Quoter) (price : ℚ) (h : 0 < q.tick_size) :
    price ≤ q.align_price price RoundMode.Ceil := by
  have h1 : price / q.tick_size ≤ ((⌈price / q.tick_size⌉ : ℚ)) := Int.le_ceil _
  have h2 := mul_le_mul_of_nonneg_right h1 (le_of_lt h)
  calc price = price / q.tick_size * q.tick_size := (div_mul_cancel₀ price (ne_of_gt h)).symm
    _ ≤ (⌈price / q.tick_size⌉ : ℚ) * q.tick_size := h2
    _ = q.align_price price RoundMode.Ceil := rfl

/-- The clamped bid price of `get_quotes` stays strictly below the best ask. -/
theorem clamped_bid_lt (q : Quoter) (htick : 0 < q.tick_size) (bid0 : ℚ) (b : BBO) :
    (if bid0 ≥ b.best_ask then q.align_price (b.best_ask - q.tick_size) RoundMode.Floor
     else bid0) < b.best_ask := by
  split
  · have h1 := align_price_floor_le q (b.best_ask - q.tick_size) htick
    linarith
  · next h => exact lt_of_not_le h

/-- The clamped ask price of `get_quotes` stays strictly above the best bid. -/
theorem clamped_ask_gt (q : Quoter) (htick : 0 < q.tick_size) (ask0 : ℚ) (b : BBO) :
    b.best_bid <
      (if ask0 ≤ b.best_bid then q.align_price (b.best_bid + q.tick_size) RoundMode.Ceil
       else ask0) := by
  split
  · have h1 := le_align_price_ceil q (b.best_bid + q.tick_size) htick
    linarith
  · next h => exact lt_of_not_le h

/-- The size used by `get_quotes` is a multiple of the lot size. -/
theorem quote_size_multiple (q : Quoter) (ctx : QuotingContext) :
    ∃ k : ℤ, q.quote_size ctx = k * q.lot_size := by
  unfold Quoter.quote_size
  split
  · exact align_size_multiple ..
  · unfold Quoter.usd_to_size
    split
    · exact ⟨0, by simp⟩
    · exact align_size_multiple ..

/-- The bid price is a multiple of the tick size. -/
theorem bid_price_multiple (q : Quoter) (ctx : QuotingContext) (bbo : Option BBO) :
    ∃ k : ℤ, q.bid_price ctx bbo = k * q.tick_size := by
  unfold Quoter.bid_price
  cases bbo with
  | none => exact align_price_multiple ..
  | some b =>
      dsimp only
      split
      · exact align_price_multiple ..
      · exact align_price_multiple ..

/-- The ask price is a multiple of the tick size. -/
theorem ask_price_multiple (q : Quoter) (ctx : QuotingContext) (bbo : Option BBO) :
    ∃ k : ℤ, q.ask_price ctx bbo = k * q.tick_size := by
  unfold Quoter.ask_price
  cases bbo with
  | none => exact align_price_multiple ..
  | some b =>
      dsimp only
      split
      · exact align_price_multiple ..
      · exact align_price_multiple ..

/-- With a BBO, the bid price stays strictly below the best ask. -/
theorem bid_price_lt_best_ask (q : Quoter) (ctx : QuotingContext) (b : BBO)
    (htick : 0 < q.tick_size) : q.bid_price ctx (some b) < b.best_ask := by
  unfold Quoter.bid_price
  exact clamped_bid_lt q htick _ b

/-- With a BBO, the ask price stays strictly above the best bid. -/
theorem ask_price_gt_best_bid (q : Quoter) (ctx : QuotingContext) (b : BBO)
    (htick : 0 < q.tick_size) : b.best_bid < q.ask_price ctx (some b) := by
  unfold Quoter.ask_price
  exact clamped_ask_gt q htick _ b

/-- C1: for every quoting context and optional BBO, every quote returned by
`Quoter::get_quotes` has a price that is an exact multiple of `tick_size`
and a size that is an exact multiple of `lot_size`; and when a BBO is
supplied, every bid quote prices strictly below `best_ask` and every ask
quote strictly above `best_bid`.  The tick positivity hypothesis holds for
the source's `tick_size = 10^-price_decimals`. -/
theorem get_quotes_aligned_and_uncrossed (q : Quoter) (ctx : QuotingContext)
    (bbo : Option BBO) (htick : 0 < q.tick_size) :
    ∀ qt ∈ q.get_quotes ctx bbo,
      (∃ k : ℤ, qt.price = k * q.tick_size) ∧
      (∃ k : ℤ, qt.size = k * q.lot_size) ∧
      (∀ b, bbo = some b →
        (qt.side = Side.Bid → qt.price < b.best_ask) ∧
        (qt.side = Side.Ask → b.best_bid < qt.price)) := by
  intro qt hqt
  rcases mem_get_quotes q ctx bbo qt hqt with rfl | rfl
  · refine ⟨bid_price_multiple q ctx bbo, quote_size_multiple q ctx, ?_⟩
    rintro b rfl
    exact ⟨fun _ => bid_price_lt_best_ask q ctx b htick, fun habs => nomatch habs⟩
  · refine ⟨ask_price_multiple q ctx bbo, quote_size_multiple q ctx, ?_⟩
    rintro b rfl
    exact ⟨fun habs => (nomatch habs), fun _ => ask_price_gt_best_bid q ctx b htick⟩

/-- C1 witness: the spec's scenario S1 market (`tick 0.01`, `lot 0.0001`,
`spread 8 bps`, `3000 USD`, fair `50000`) with BBO `(49000, 51000)` produces
the bid quote `(Bid, 49960, 0.06)`, and the theorem's conclusions hold of
it. -/
theorem get_quotes_aligned_and_uncrossed_witness :
    (0 : ℚ) < (1/100 : ℚ) ∧
    ((∃ k : ℤ, ({ side := Side.Bid, price := 49960, size := 3/50 } : Quote).price =
        k * (1/100 : ℚ)) ∧
     (∃ k : ℤ, ({ side := Side.Bid, price := 49960, size := 3/50 } : Quote).size =
        k * (1/10000 : ℚ)) ∧
     (∀ b, (some { best_bid := 49000, best_ask := 51000 } : Option BBO) = some b →
        (({ side := Side.Bid, price := 49960, size := 3/50 } : Quote).side = Side.Bid →
          ({ side := Side.Bid, price := 49960, size := 3/50 } : Quote).price < b.best_ask) ∧
        (({ side := Side.Bid, price := 49960, size := 3/50 } : Quote).side = Side.Ask →
          b.best_bid < ({ side := Side.Bid, price := 49960, size := 3/50 } : Quote).price))) := by
  have htick : (0 : ℚ) <
      (({ tick_size := 1/100, lot_size := 1/10000, spread_bps := 8, take_profit_bps := 1/10,
          order_size_usd := 3000 } : Quoter)).tick_size := by norm_num
  have hmem : ({ side := Side.Bid, price := 49960, size := 3/50 } : Quote) ∈
      Quoter.get_quotes
        { tick_size := 1/100, lot_size := 1/10000, spread_bps := 8, take_profit_bps := 1/10,
          order_size_usd := 3000 }
        { fair_price := 50000,
          position_state :=
            { size_base := 0, size_usd := 0, is_long := false, is_close_mode := false },
          allowed_sides := [Side.Bid, Side.Ask] }
        (some { best_bid := 49000, best_ask := 51000 }) := by
    norm_num [Quoter.get_quotes, Quoter.quote_size, Quoter.usd_to_size, Quoter.align_size,
      Quoter.bid_price, Quoter.ask_price, Quoter.align_price, Quoter.spread_amount]
  exact ⟨by norm_num, get_quotes_aligned_and_uncrossed _ _ _ htick _ hmem⟩

/-! ## Position tracker (`zo/src/mm/position.rs`)

The Rust tracker stores `base_size` in an `AtomicU64` holding `f64` bits and
mutates it with a CAS loop; sequentially that is a read-modify-write of one
rational cell, which is how it is embedded here. -/

/-- Embedding of `PositionConfig`. -/
structure PositionConfig where
  close_threshold_usd : ℚ
  sync_interval_ms : ℕ
deriving DecidableEq, Repr

/-- Embedding of `PositionTracker`: configuration plus the base-size cell. -/
structure PositionTracker where
  config : PositionConfig
  base_size : ℚ
deriving DecidableEq, Repr

/-- Embedding of `PositionTracker::apply_fill`: bid fills increase the position, ask
fills decrease it. -/
def PositionTracker.apply_fill (t : PositionTracker) (side : Side) (size : ℚ) :
    PositionTracker :=
  { t with
    base_size :=
      match side with
      | Side.Bid => t.base_size + size
      | Side.Ask => t.base_size - size }

/-- Embedding of `PositionTracker::get_base_size`. -/
def PositionTracker.get_base_size (t : PositionTracker) : ℚ :=
  t.base_size

/-- Embedding of `PositionTracker::is_close_mode`. -/
def PositionTracker.is_close_mode (t : PositionTracker) (fair_price : ℚ) : Bool :=
  t.config.close_threshold_usd ≤ |t.get_base_size * fair_price|

/-- Embedding of `PositionTracker::get_state`. -/
def PositionTracker.get_state (t : PositionTracker) (fair_price : ℚ) : PositionState :=
  let size_base := t.get_base_size
  let size_usd := size_base * fair_price
  { size_base := size_base
    size_usd := size_usd
    is_long := decide (0 < size_base)
    is_close_mode := decide (t.config.close_threshold_usd ≤ |size_usd|) }

/-- Embedding of `allowed_sides`: which sides the quoter may trade given the position. -/
def allowed_sides (state : PositionState) : List Side :=
  if state.is_close_mode then
    if state.is_long then [Side.Ask] else [Side.Bid]
  else [Side.Bid, Side.Ask]

/-- Embedding of `PositionTracker::get_quoting_context`. -/
def PositionTracker.get_quoting_context (t : PositionTracker) (fair_price : ℚ) :
    QuotingContext :=
  let state := t.get_state fair_price
  { fair_price := fair_price
    position_state := state
    allowed_sides := allowed_sides state }

/-- C8: `apply_fill(side, size)` changes the stored base size by `+size`
for a bid and `-size` for an ask and leaves the rest of the tracker
unchanged; and the quoting context at fair price `f` is in close mode
exactly when `|size_base * f| ≥ close_threshold_usd`, with allowed sides
`[Ask]` in close mode while long, `[Bid]` in close mode while not long, and
`[Bid, Ask]` otherwise. -/
theorem apply_fill_and_quoting_context (t : PositionTracker) (side : Side) (size f : ℚ) :
    ((t.apply_fill side size).base_size =
      t.base_size + (if side = Side.Bid then size else -size)) ∧
    ((t.apply_fill side size).config = t.config) ∧
    ((t.get_quoting_context f).position_state.is_close_mode = true ↔
      t.config.close_threshold_usd ≤ |t.base_size * f|) ∧
    ((t.get_quoting_context f).allowed_sides =
      if t.config.close_threshold_usd ≤ |t.base_size * f| then
        (if 0 < t.base_size then [Side.Ask] else [Side.Bid])
      else [Side.Bid, Side.Ask]) := by
  refine ⟨?_, rfl, ?_, ?_⟩
  · cases side <;> simp [PositionTracker.apply_fill, sub_eq_add_neg]
  · simp [PositionTracker.get_quoting_context, PositionTracker.get_state,
      PositionTracker.get_base_size]
  · simp only [PositionTracker.get_quoting_context, PositionTracker.get_state,
      PositionTracker.get_base_size, allowed_sides]
    by_cases hc : t.config.close_threshold_usd ≤ |t.base_size * f| <;>
      by_cases hl : 0 < t.base_size <;> simp [hc, hl]

/-! ## Order reconciler (`zo/src/orders.rs`) -/

/-- An order whose ID is known (`CachedOrder`). -/
structure CachedOrder where
  order_id : ℕ
  side : Side
  price : ℚ
  size : ℚ
deriving DecidableEq, Repr

/-- Embedding of `order_matches_quote`: same side, price and size under exact decimal
comparison. -/
def order_matches_quote (o : CachedOrder) (q : Quote) : Bool :=
  decide (o.side = q.side) && decide (o.price = q.price) && decide (o.size = q.size)

/-- One step of the diff's matching: find the first not-yet-matched current
order equal to the quote and flag it.  The source keeps a parallel
`matched_indices: Vec<bool>` and uses `position` over indices; here the flag
vector is fused with the order list as pairs, which carries the same state. -/
def match_first (q : Quote) :
    List (CachedOrder × Bool) → Option (CachedOrder × List (CachedOrder × Bool))
  | [] => none
  | (o, m) :: rest =>
      if !m && order_matches_quote o q then some (o, (o, true) :: rest)
      else
        match match_first q rest with
        | some (o', rest') => some (o', (o, m) :: rest')
        | none => none

/-- Loop of `diff_orders` over the desired quotes: a matched quote appends
the matched order to `kept`, an unmatched one appends the quote to
`to_place`. -/
def diff_go (atomic_quotes : List Quote) (pairs : List (CachedOrder × Bool))
    (kept : List CachedOrder) (to_place : List Quote) :
    List (CachedOrder × Bool) × List CachedOrder × List Quote :=
  match atomic_quotes with
  | [] => (pairs, kept, to_place)
  | q :: qs =>
      match match_first q pairs with
      | some (o, pairs') => diff_go qs pairs' (kept ++ [o]) to_place
      | none => diff_go qs pairs kept (to_place ++ [q])

/-- The still-unmatched orders of a flagged list, in their original order. -/
def unmatched (pairs : List (CachedOrder × Bool)) : List CachedOrder :=
  (pairs.filter (fun p => !p.2)).map Prod.fst

/-- Embedding of `diff_orders`: returns `(kept_orders, orders_to_cancel, quotes_to_place)`. -/
def diff_orders (current : List CachedOrder) (new_quotes : List Quote) :
    List CachedOrder × List CachedOrder × List Quote :=
  let r := diff_go new_quotes (current.map (fun o => (o, false))) [] []
  (r.2.1, unmatched r.1, r.2.2)

/-- A successful `match_first` removes exactly the matched order from the
unmatched multiset. -/
theorem match_first_perm (q : Quote) :
    ∀ (pairs : List (CachedOrder × Bool)) (o : CachedOrder)
      (pairs' : List (CachedOrder × Bool)),
      match_first q pairs = some (o, pairs') →
      List.Perm (unmatched pairs) (o :: unmatched pairs') := by
  intro pairs
  induction pairs with
  | nil => intro o pairs' h; simp [match_first] at h
  | cons p rest ih =>
      obtain ⟨a, m⟩ := p
      intro o pairs' h
      simp only [match_first] at h
      split at h
      · next hcond =>
          obtain ⟨rfl, rfl⟩ := Prod.mk.inj (Option.some.inj h)
          have hm : m = false := by
            have hc : (!m) = true ∧ order_matches_quote a q = true := by
              simpa using hcond
            simpa using hc.1
          subst hm
          simp [unmatched]
      · cases hmf : match_first q rest with
        | none => rw [hmf] at h; cases h
        | some pr =>
            obtain ⟨o', rest'⟩ := pr
            rw [hmf] at h
            obtain ⟨rfl, rfl⟩ := Prod.mk.inj (Option.some.inj h)
            have hperm := ih o' rest' hmf
            cases m with
            | true =>
                have e1 : unmatched ((a, true) :: rest) = unmatched rest := by
                  simp [unmatched]
                have e2 : unmatched ((a, true) :: rest') = unmatched rest' := by
                  simp [unmatched]
                rw [e1, e2]
                exact hperm
            | false =>
                have e1 : unmatched ((a, false) :: rest) = a :: unmatched rest := by
                  simp [unmatched]
                have e2 : unmatched ((a, false) :: rest') = a :: unmatched rest' := by
                  simp [unmatched]
                rw [e1, e2]
                exact (hperm.cons a).trans (List.Perm.swap o' a (unmatched rest'))

/-- A successful `match_first` returns an order that matches the quote. -/
theorem match_first_matches (q : Quote) :
    ∀ (pairs : List (CachedOrder × Bool)) (o : CachedOrder)
      (pairs' : List (CachedOrder × Bool)),
      match_first q pairs = some (o, pairs') → order_matches_quote o q = true := by
  intro pairs
  induction pairs with
  | nil => intro o pairs' h; simp [match_first] at h
  | cons p rest ih =>
      obtain ⟨a, m⟩ := p
      intro o pairs' h
      simp only [match_first] at h
      split at h
      · next hcond =>
          obtain ⟨rfl, rfl⟩ := Prod.mk.inj (Option.some.inj h)
          have hc : (!m) = true ∧ order_matches_quote a q = true := by simpa using hcond
          exact hc.2
      · cases hmf : match_first q rest with
        | none => rw [hmf] at h; cases h
        | some pr =>
            obtain ⟨o', rest'⟩ := pr
            rw [hmf] at h
            obtain ⟨rfl, rfl⟩ := Prod.mk.inj (Option.some.inj h)
            exact ih o' rest' hmf

/-- Invariant of the diff loop: kept plus unmatched is a permutation of the
start, each quote lands in exactly one of kept/place, kept orders match some
quote, and placed quotes come from the input. -/
theorem diff_go_spec (atomic_quotes : List Quote) :
    ∀ (pairs : List (CachedOrder × Bool)) (kept : List CachedOrder)
      (to_place : List Quote),
      (List.Perm
        ((diff_go atomic_quotes pairs kept to_place).2.1 ++
          unmatched (diff_go atomic_quotes pairs kept to_place).1)
        (kept ++ unmatched pairs)) ∧
      ((diff_go atomic_quotes pairs kept to_place).2.1.length +
          (diff_go atomic_quotes pairs kept to_place).2.2.length =
        kept.length + to_place.length + atomic_quotes.length) ∧
      (∀ o ∈ (diff_go atomic_quotes pairs kept to_place).2.1,
        o ∈ kept ∨ ∃ qq ∈ atomic_quotes, order_matches_quote o qq = true) ∧
      (∀ qq ∈ (diff_go atomic_quotes pairs kept to_place).2.2,
        qq ∈ to_place ∨ qq ∈ atomic_quotes) := by
  induction atomic_quotes with
  | nil =>
      intro pairs kept to_place
      exact ⟨List.Perm.refl _, by simp [diff_go], fun o ho => Or.inl ho,
        fun qq hq => Or.inl hq⟩
  | cons q qs ih =>
      intro pairs kept to_place
      simp only [diff_go]
      cases hmf : match_first q pairs with
      | some pr =>
          obtain ⟨o, pairs'⟩ := pr
          obtain ⟨ih1, ih2, ih3, ih4⟩ := ih pairs' (kept ++ [o]) to_place
          refine ⟨?_, ?_, ?_, ?_⟩
          · refine ih1.trans ?_
            have h1 := (match_first_perm q pairs o pairs' hmf).symm
            have h2 : (kept ++ [o]) ++ unmatched pairs' =
                kept ++ (o :: unmatched pairs') := by simp
            rw [h2]
            exact h1.append_left kept
          · rw [ih2]; simp; omega
          · intro o' ho'
            rcases ih3 o' ho' with h | h
            · rcases List.mem_append.mp h with h | h
              · exact Or.inl h
              · rcases List.mem_singleton.mp h with rfl
                exact Or.inr ⟨q, List.mem_cons_self q qs,
                  match_first_matches q pairs o' pairs' hmf⟩
            · obtain ⟨qq, hqq, hmt⟩ := h
              exact Or.inr ⟨qq, List.mem_cons_of_mem _ hqq, hmt⟩
          · intro qq hq
            rcases ih4 qq hq with h | h
            · exact Or.inl h
            · exact Or.inr (List.mem_cons_of_mem _ h)
      | none =>
          obtain ⟨ih1, ih2, ih3, ih4⟩ := ih pairs kept (to_place ++ [q])
          refine ⟨ih1, ?_, ?_, ?_⟩
          · rw [ih2]; simp; omega
          · intro o' ho'
            rcases ih3 o' ho' with h | h
            · exact Or.inl h
            · obtain ⟨qq, hqq, hmt⟩ := h
              exact Or.inr ⟨qq, List.mem_cons_of_mem _ hqq, hmt⟩
          · intro qq hq
            rcases ih4 qq hq with h | h
            · rcases List.mem_append.mp h with h | h
              · exact Or.inl h
              · rcases List.mem_singleton.mp h with rfl
                exact Or.inr (by simp)
            · exact Or.inr (List.mem_cons_of_mem _ h)

/-- Orders enter the diff with all flags cleared: nothing is matched yet. -/
theorem unmatched_map_false (l : List CachedOrder) :
    unmatched (l.map (fun o => (o, false))) = l := by
  induction l with
  | nil => rfl
  | cons a t ih =>
      have e : unmatched ((a, false) :: t.map (fun o => (o, false))) =
          a :: unmatched (t.map (fun o => (o, false))) := by simp [unmatched]
      simp only [List.map_cons, e, ih]

/-- C2: `diff_orders` partitions the current orders into kept and
to-cancel (their multiset union is exactly the current list), every desired
quote lands in exactly one of a kept match or to_place (their counts add to
the quote count), every kept order equals some desired quote on
`(side, price, size)`, and every placed quote is a desired quote.  The
first-unmatched matching rule is `match_first` by definition. -/
theorem diff_orders_partition (current : List CachedOrder) (new_quotes : List Quote) :
    (List.Perm
      ((diff_orders current new_quotes).1 ++ (diff_orders current new_quotes).2.1)
      current) ∧
    ((diff_orders current new_quotes).1.length +
        (diff_orders current new_quotes).2.2.length = new_quotes.length) ∧
    (∀ o ∈ (diff_orders current new_quotes).1,
      ∃ q ∈ new_quotes, order_matches_quote o q = true) ∧
    (∀ q ∈ (diff_orders current new_quotes).2.2, q ∈ new_quotes) := by
  obtain ⟨h1, h2, h3, h4⟩ :=
    diff_go_spec new_quotes (current.map (fun o => (o, false))) [] []
  refine ⟨?_, ?_, ?_, ?_⟩
  · simpa [diff_orders, unmatched_map_false] using h1
  · simpa [diff_orders] using h2
  · intro o ho
    rcases h3 o ho with h | h
    · simp at h
    · exact h
  · intro q hq
    rcases h4 q hq with h | h
    · simp at h
    · exact h

/-- C2 witness: a variant of the spec's scenario S6 — the diff keeps the
matching ask order, and the kept ask matches a desired quote. -/
theorem diff_orders_partition_witness :
    (List.Perm
      ((diff_orders
          [{ order_id := 1, side := Side.Bid, price := 49000, size := 1 },
           { order_id := 2, side := Side.Ask, price := 51000, size := 1 }]
          [{ side := Side.Bid, price := 49500, size := 1 },
           { side := Side.Ask, price := 51000, size := 1 }]).1 ++
        (diff_orders
          [{ order_id := 1, side := Side.Bid, price := 49000, size := 1 },
           { order_id := 2, side := Side.Ask, price := 51000, size := 1 }]
          [{ side := Side.Bid, price := 49500, size := 1 },
           { side := Side.Ask, price := 51000, size := 1 }]).2.1)
      [{ order_id := 1, side := Side.Bid, price := 49000, size := 1 },
       { order_id := 2, side := Side.Ask, price := 51000, size := 1 }]) ∧
    (∃ q ∈ [({ side := Side.Bid, price := 49500, size := 1 } : Quote),
            { side := Side.Ask, price := 51000, size := 1 }],
      order_matches_quote { order_id := 2, side := Side.Ask, price := 51000, size := 1 }
        q = true) := by
  have h := diff_orders_partition
    [{ order_id := 1, side := Side.Bid, price := 49000, size := 1 },
     { order_id := 2, side := Side.Ask, price := 51000, size := 1 }]
    [{ side := Side.Bid, price := 49500, size := 1 },
     { side := Side.Ask, price := 51000, size := 1 }]
  exact ⟨h.1, h.2.2.1
    { order_id := 2, side := Side.Ask, price := 51000, size := 1 } (by decide)⟩

/-! ## Atomic submission (`zo/src/orders.rs`, effectful part)

The exchange call `user.atomic(chunk, None)` is embedded as an oracle
function from a chunk of subactions to a receipt or an error; the submission
paths return, alongside their result, the list of chunks actually submitted
(writer style), so "submits nothing" is expressible. -/

/-- Fill mode of a place action (`nord::FillMode`). -/
inductive FillMode
  | PostOnly
  | Limit
  | ImmediateOrCancel
  | FillOrKill
deriving DecidableEq, Repr

/-- One atomic subaction (`UserAtomicSubaction`): a cancel by id or a
post-only place. -/
inductive UserAtomicSubaction
  | Cancel (order_id : ℕ)
  | Place (market_id : ℕ) (side : Side) (fill_mode : FillMode) (is_reduce_only : Bool)
      (size : Option ℚ) (price : Option ℚ) (quote_size : Option ℕ)
      (client_order_id : Option ℕ)
deriving DecidableEq, Repr

/-- A posted-order receipt (`proto::receipt::Posted`); scaled integer fields. -/
structure Posted where
  side : ℕ
  market_id : ℕ
  price : ℕ
  size : ℕ
  order_id : ℕ
  account_id : ℕ
deriving DecidableEq, Repr

/-- A subaction result (`receipt::atomic_subaction_result_kind::Inner`);
only `PlaceOrderResult.posted` is inspected by the reconciler, other result
kinds behave like `CancelOrder` there. -/
inductive AtomicResultInner
  | PlaceOrderResult (posted : Option Posted)
  | CancelOrder (order_id : ℕ)
deriving DecidableEq, Repr

/-- The receipt of one atomic call (the `results` field used by the code). -/
structure AtomicResult where
  results : List AtomicResultInner
deriving DecidableEq, Repr

/-- The error type of the order layer (`ZoError`); the claims only need it
to be inhabited and distinguishable from success. -/
inductive ZoError
  | Nord
deriving DecidableEq, Repr

/-- Embedding of `build_place_action`. -/
def build_place_action (market_id : ℕ) (q : Quote) : UserAtomicSubaction :=
  UserAtomicSubaction.Place market_id q.side FillMode.PostOnly false
    (some q.size) (some q.price) none none

/-- Embedding of `build_cancel_action`. -/
def build_cancel_action (order_id : ℕ) : UserAtomicSubaction :=
  UserAtomicSubaction.Cancel order_id

/-- Embedding of `MAX_ATOMIC_ACTIONS`: exchange limit on subactions per atomic call. -/
def MAX_ATOMIC_ACTIONS : ℕ := 4

/-- Embedding of `actions.chunks(MAX_ATOMIC_ACTIONS)`. -/
def chunks4 {α : Type} : List α → List (List α)
  | [] => []
  | a :: l =>
      (a :: l).take MAX_ATOMIC_ACTIONS :: chunks4 ((a :: l).drop MAX_ATOMIC_ACTIONS)
termination_by l => l.length
decreasing_by simp [MAX_ATOMIC_ACTIONS]; omega

/-- Is a subaction a place? (`matches!(a, UserAtomicSubaction::Place ..)`) -/
def is_place : UserAtomicSubaction → Bool
  | UserAtomicSubaction.Place .. => true
  | UserAtomicSubaction.Cancel _ => false

/-- Loop of `extract_placed_orders`: walk the results, pairing each
`PlaceOrderResult` with the next place action by index. -/
def extract_go (place_actions : List UserAtomicSubaction) :
    ℕ → List AtomicResultInner → List CachedOrder
  | _, [] => []
  | place_idx, AtomicResultInner.PlaceOrderResult posted :: rest =>
      (match posted, place_actions.get? place_idx with
       | some p, some (UserAtomicSubaction.Place _ side _ _ size price _ _) =>
           [{ order_id := p.order_id, side := side, price := price.getD 0,
              size := size.getD 0 }]
       | _, _ => []) ++ extract_go place_actions (place_idx + 1) rest
  | place_idx, AtomicResultInner.CancelOrder _ :: rest =>
      extract_go place_actions place_idx rest

/-- Embedding of `extract_placed_orders`. -/
def extract_placed_orders (results : List AtomicResultInner)
    (actions : List UserAtomicSubaction) : List CachedOrder :=
  extract_go (actions.filter is_place) 0 results

/-- Loop of `execute_atomic` over the chunks: submit each chunk in turn,
extending the placed set, stopping at the first error. -/
def run_chunks (atomic : List UserAtomicSubaction → Except ZoError AtomicResult) :
    List (List UserAtomicSubaction) →
      Except ZoError (List CachedOrder) × List (List UserAtomicSubaction)
  | [] => (Except.ok [], [])
  | c :: cs =>
      match atomic c with
      | Except.error e => (Except.error e, [c])
      | Except.ok result =>
          let placed := extract_placed_orders result.results c
          let r := run_chunks atomic cs
          (r.1.map (fun more => placed ++ more), c :: r.2)

/-- Embedding of `execute_atomic`: nothing to do on an empty action list, otherwise run
the chunks. -/
def execute_atomic (atomic : List UserAtomicSubaction → Except ZoError AtomicResult)
    (actions : List UserAtomicSubaction) :
    Except ZoError (List CachedOrder) × List (List UserAtomicSubaction) :=
  if actions.isEmpty then (Except.ok [], [])
  else run_chunks atomic (chunks4 actions)

/-- Embedding of `update_quotes`: diff, early-return when nothing changed, otherwise
cancel stale orders and place new ones atomically. -/
def update_quotes (atomic : List UserAtomicSubaction → Except ZoError AtomicResult)
    (market_id : ℕ) (current_orders : List CachedOrder) (new_quotes : List Quote) :
    Except ZoError (List CachedOrder) × List (List UserAtomicSubaction) :=
  let r := diff_orders current_orders new_quotes
  if r.2.1.isEmpty && r.2.2.isEmpty then (Except.ok current_orders, [])
  else
    let actions := r.2.1.map (fun o => build_cancel_action o.order_id) ++
      r.2.2.map (build_place_action market_id)
    let e := execute_atomic atomic actions
    (e.1.map (fun placed => r.1 ++ placed), e.2)

/-- Embedding of `cancel_orders`: cancel all given orders atomically, nothing to do on an
empty list. -/
def cancel_orders (atomic : List UserAtomicSubaction → Except ZoError AtomicResult)
    (orders : List CachedOrder) : Except ZoError Unit × List (List UserAtomicSubaction) :=
  if orders.isEmpty then (Except.ok (), [])
  else
    let actions := orders.map (fun o => build_cancel_action o.order_id)
    let e := execute_atomic atomic actions
    (e.1.map (fun _ => ()), e.2)

/-- C10: when the diff yields nothing to cancel and nothing to place,
`update_quotes` returns the current order list unchanged and submits no
chunk to the exchange; and `cancel_orders` on an empty list returns `Ok`
without submitting anything. -/
theorem update_quotes_noop_frame
    (atomic : List UserAtomicSubaction → Except ZoError AtomicResult)
    (market_id : ℕ) (current_orders : List CachedOrder) (new_quotes : List Quote)
    (hc : (diff_orders current_orders new_quotes).2.1 = [])
    (hp : (diff_orders current_orders new_quotes).2.2 = []) :
    update_quotes atomic market_id current_orders new_quotes =
      (Except.ok current_orders, []) ∧
    cancel_orders atomic [] = (Except.ok (), []) := by
  constructor
  · unfold update_quotes
    simp only [hc, hp, List.isEmpty_nil, Bool.and_self, if_true]
  · rfl

/-- C10 witness: with one current order exactly matching the one desired
quote, nothing is submitted, for any oracle (here one that would fail). -/
theorem update_quotes_noop_frame_witness :
    update_quotes (fun _ => Except.error ZoError.Nord) 1
        [{ order_id := 7, side := Side.Bid, price := 49000, size := 1 }]
        [{ side := Side.Bid, price := 49000, size := 1 }] =
      (Except.ok [{ order_id := 7, side := Side.Bid, price := 49000, size := 1 }], []) ∧
    cancel_orders (fun _ => Except.error ZoError.Nord) [] = (Except.ok (), []) :=
  update_quotes_noop_frame (fun _ => Except.error ZoError.Nord) 1
    [{ order_id := 7, side := Side.Bid, price := 49000, size := 1 }]
    [{ side := Side.Bid, price := 49000, size := 1 }]
    (by decide) (by decide)

/-! ## Fair price calculator (`zo/src/fair_price.rs`) -/

/-- Embedding of `MAX_SAMPLES`: capacity of the circular sample buffer. -/
def MAX_SAMPLES : ℕ := 500

/-- Embedding of `FairPriceConfig`. -/
structure FairPriceConfig where
  window_ms : ℕ
  min_samples : ℕ
deriving DecidableEq, Repr

/-- A single offset sample (`OffsetSample`). -/
structure OffsetSample where
  offset : ℚ
  second : ℕ
deriving DecidableEq, Repr

/-- Embedding of `FairPriceCalculator`: ring buffer of per-second offset samples; the
`samples` vector grows to `MAX_SAMPLES` and is then overwritten at `head`. -/
structure FairPriceCalculator where
  config : FairPriceConfig
  samples : List OffsetSample
  head : ℕ
  count : ℕ
  last_second : ℕ
deriving DecidableEq, Repr

/-- Embedding of `FairPriceCalculator::add_sample`: record one offset per wall-clock
second; a call inside an already-seen second is a no-op. -/
def FairPriceCalculator.add_sample (c : FairPriceCalculator)
    (local_mid reference_mid : ℚ) (now_ms : ℕ) : FairPriceCalculator :=
  let current_second := now_ms / 1000
  if current_second ≤ c.last_second then c
  else
    let sample : OffsetSample :=
      { offset := local_mid - reference_mid, second := current_second }
    { c with
      last_second := current_second
      samples :=
        if c.samples.length < MAX_SAMPLES then c.samples ++ [sample]
        else c.samples.set c.head sample
      head := (c.head + 1) % MAX_SAMPLES
      count := if c.count < MAX_SAMPLES then c.count + 1 else c.count }

/-- Embedding of `cutoff_second`: samples at or before this second are expired
(`saturating_sub` is ℕ subtraction). -/
def cutoff_second (now_ms window_ms : ℕ) : ℕ :=
  (now_ms - window_ms) / 1000

/-- Embedding of `FairPriceCalculator::collect_valid_offsets`. -/
def FairPriceCalculator.collect_valid_offsets (c : FairPriceCalculator)
    (now_ms : ℕ) : List ℚ :=
  ((c.samples.take c.count).filter
    (fun s => cutoff_second now_ms c.config.window_ms < s.second)).map OffsetSample.offset

/-- Embedding of `FairPriceCalculator::get_sample_count`. -/
def FairPriceCalculator.get_sample_count (c : FairPriceCalculator) (now_ms : ℕ) : ℕ :=
  ((c.samples.take c.count).filter
    (fun s => cutoff_second now_ms c.config.window_ms < s.second)).length

/-- Result of a computation that can end in a Rust runtime panic instead of
returning; it keeps the abort of `select_nth_unstable` on an empty slice
distinct from every ordinary return value. -/
inductive PanicOr (α : Type) where
  | panic
  | ret (val : α)
deriving DecidableEq, Repr

/-- Embedding of `compute_median`, through the contract of
`select_nth_unstable_by(mid)`: the call panics when `mid ≥ len`, which for
`mid = len / 2` happens exactly on the empty slice; after selection,
`values[mid]` holds the `mid`-th element of the sorted order and the left
partition holds the `mid` smallest elements, so the code's
`NEG_INFINITY`-seeded fold over the left partition is a fold over the
sorted prefix, nonempty for every even nonzero length (the `[]` arm of the
inner match is unreachable).  `insertionSort` provides the executable
sorted permutation (on `ℚ` every sorted permutation of a list is the same
list of values). -/
def compute_median (values : List ℚ) : PanicOr ℚ :=
  if values = [] then PanicOr.panic
  else
    let sorted := values.insertionSort (fun a b => a ≤ b)
    let mid := values.length / 2
    if values.length % 2 = 1 then PanicOr.ret (sorted.getD mid 0)
    else
      match sorted.take mid with
      | [] => PanicOr.ret 0
      | x :: xs => PanicOr.ret ((xs.foldl max x + sorted.getD mid 0) / 2)

/-- Embedding of `FairPriceCalculator::get_median_offset`: `none` below
`min_samples`; at or above the threshold the median is computed, which
panics on an empty offset list (possible only when `min_samples = 0`). -/
def FairPriceCalculator.get_median_offset (c : FairPriceCalculator)
    (now_ms : ℕ) : PanicOr (Option ℚ) :=
  let offsets := c.collect_valid_offsets now_ms
  if offsets.length < c.config.min_samples then PanicOr.ret none
  else
    match compute_median offsets with
    | PanicOr.panic => PanicOr.panic
    | PanicOr.ret m => PanicOr.ret (some m)

/-- Embedding of `FairPriceCalculator::get_fair_price`:
`reference_mid + median(offsets)`, propagating a not-ready `none` (the `?`
operator) and any panic. -/
def FairPriceCalculator.get_fair_price (c : FairPriceCalculator)
    (reference_mid : ℚ) (now_ms : ℕ) : PanicOr (Option ℚ) :=
  match c.get_median_offset now_ms with
  | PanicOr.panic => PanicOr.panic
  | PanicOr.ret o => PanicOr.ret (o.map (fun offset => reference_mid + offset))

/-- The median in the words of the spec: middle element of the sorted
offsets for an odd count, average of the two middle elements for an even
count. -/
def median_claim (values : List ℚ) : ℚ :=
  let sorted := values.insertionSort (fun a b => a ≤ b)
  if values.length % 2 = 1 then sorted.getD (values.length / 2) 0
  else
    (sorted.getD (values.length / 2 - 1) 0 + sorted.getD (values.length / 2) 0) / 2

/-- Folding `max` from the head of a `≤`-sorted nonempty list reaches its
last element. -/
theorem foldl_max_sorted :
    ∀ (xs : List ℚ) (x : ℚ), (x :: xs).Pairwise (fun a b => a ≤ b) →
      xs.foldl max x = (x :: xs).getLast (List.cons_ne_nil x xs) := by
  intro xs
  induction xs with
  | nil => intro x _; rfl
  | cons y ys ih =>
      intro x hp
      obtain ⟨h1, h2⟩ := List.pairwise_cons.mp hp
      have hxy : x ≤ y := h1 y (List.mem_cons_self y ys)
      have e1 : (y :: ys).foldl max x = ys.foldl max y := by
        simp [max_eq_right hxy]
      rw [e1, ih y h2, List.getLast_cons (List.cons_ne_nil y ys)]

/-- Property: `getLast` applied to equal lists gives equal values. -/
theorem getLast_eq_of_eq {l1 l2 : List ℚ} (e : l1 = l2) (h1 : l1 ≠ [])
    (h2 : l2 ≠ []) : l1.getLast h1 = l2.getLast h2 := by
  subst e
  rfl

/-- The last element of a nonempty prefix of a list is the element just
before the cut. -/
theorem getLast_take_eq_getD (l : List ℚ) (mid : ℕ) (h1 : 1 ≤ mid)
    (h2 : mid ≤ l.length) (h : l.take mid ≠ []) :
    (l.take mid).getLast h = l.getD (mid - 1) 0 := by
  have hlen : (l.take mid).length = mid := by
    simp [List.length_take]
    omega
  have hidx : mid - 1 < l.length := by omega
  rw [List.getLast_eq_getElem, List.getD_eq_getElem l 0 hidx]
  simp only [List.getElem_take, hlen]

/-- The code's selection-based median agrees with the spec's sorted-order
median on every nonempty list (where it does not panic). -/
theorem compute_median_eq_median_claim (l : List ℚ) (hl : l ≠ []) :
    compute_median l = PanicOr.ret (median_claim l) := by
  simp only [compute_median, median_claim]
  rw [if_neg hl]
  by_cases hodd : l.length % 2 = 1
  · rw [if_pos hodd, if_pos hodd]
  · rw [if_neg hodd, if_neg hodd]
    have hn : l.length ≠ 0 := by
      intro h
      exact hl (List.length_eq_zero.mp h)
    have hge2 : 2 ≤ l.length := by omega
    have hmid1 : 1 ≤ l.length / 2 := by omega
    have hsortlen : (l.insertionSort (fun a b => a ≤ b)).length = l.length :=
      (List.perm_insertionSort (fun a b => a ≤ b) l).length_eq
    have hmidle : l.length / 2 ≤ (l.insertionSort (fun a b => a ≤ b)).length := by
      omega
    cases htk : (l.insertionSort (fun a b => a ≤ b)).take (l.length / 2) with
    | nil =>
        exfalso
        have hlen0 : min (l.length / 2) (l.insertionSort (fun a b => a ≤ b)).length = 0 := by
          simpa [List.length_take] using congrArg List.length htk
        omega
    | cons x xs =>
        have hsorted : (l.insertionSort (fun a b => a ≤ b)).Pairwise (fun a b => a ≤ b) :=
          List.sorted_insertionSort _ l
        have htksorted : (x :: xs).Pairwise (fun a b => a ≤ b) := by
          rw [← htk]
          exact hsorted.sublist (List.take_sublist _ _)
        have hne : (l.insertionSort (fun a b => a ≤ b)).take (l.length / 2) ≠ [] := by
          rw [htk]
          exact List.cons_ne_nil x xs
        have hlast := getLast_take_eq_getD (l.insertionSort (fun a b => a ≤ b))
          (l.length / 2) hmid1 hmidle hne
        have e2 := getLast_eq_of_eq htk hne (List.cons_ne_nil x xs)
        dsimp only
        rw [foldl_max_sorted xs x htksorted, ← e2, hlast]

/-- C3 counterexample: `min_samples = 0` is a reachable configuration
(`--warmup-seconds 0` flows into `min_samples` unvalidated) and with no
valid samples the valid count 0 is not below `min_samples`, so the claim
demands the fused price; the code instead panics in `select_nth_unstable`
on the empty offset slice, returning neither `none` nor a value. -/
theorem get_fair_price_spec_counterexample :
    FairPriceCalculator.get_fair_price
      { config := { window_ms := 300000, min_samples := 0 }, samples := [],
        head := 0, count := 0, last_second := 0 } 100 1000 = PanicOr.panic ∧
    FairPriceCalculator.get_sample_count
      { config := { window_ms := 300000, min_samples := 0 }, samples := [],
        head := 0, count := 0, last_second := 0 } 1000 = 0 ∧
    ¬ ((0 : ℕ) < 0) := by
  refine ⟨?_, ?_, by decide⟩
  · norm_num [FairPriceCalculator.get_fair_price, FairPriceCalculator.get_median_offset,
      FairPriceCalculator.collect_valid_offsets, compute_median, cutoff_second]
  · norm_num [FairPriceCalculator.get_sample_count, cutoff_second]

/-- C3 (amended): provided `min_samples ≥ 1`, `get_fair_price` never
panics, returns `none` exactly when fewer than `min_samples` valid samples
are in the window, and otherwise returns `reference_mid` plus the median
of the valid offsets, the median of an even count being the average of the
two middle elements.  With `min_samples = 0` and no valid samples the code
panics inside `select_nth_unstable` instead of returning. -/
theorem get_fair_price_spec (c : FairPriceCalculator) (reference_mid : ℚ)
    (now_ms : ℕ) (hmin : 0 < c.config.min_samples) :
    c.get_fair_price reference_mid now_ms ≠ PanicOr.panic ∧
    (c.get_fair_price reference_mid now_ms = PanicOr.ret none ↔
      c.get_sample_count now_ms < c.config.min_samples) ∧
    (∀ v, c.get_fair_price reference_mid now_ms = PanicOr.ret (some v) →
      v = reference_mid + median_claim (c.collect_valid_offsets now_ms)) := by
  have hcount : c.get_sample_count now_ms = (c.collect_valid_offsets now_ms).length := by
    simp [FairPriceCalculator.get_sample_count, FairPriceCalculator.collect_valid_offsets]
  by_cases hlt : (c.collect_valid_offsets now_ms).length < c.config.min_samples
  · have e : c.get_fair_price reference_mid now_ms = PanicOr.ret none := by
      simp [FairPriceCalculator.get_fair_price, FairPriceCalculator.get_median_offset, hlt]
    refine ⟨by simp [e], by simp [e, hcount, hlt], ?_⟩
    intro v hv
    rw [e] at hv
    simp at hv
  · have hne : c.collect_valid_offsets now_ms ≠ [] := by
      intro h
      rw [h] at hlt
      simp at hlt
      omega
    have e : c.get_fair_price reference_mid now_ms = PanicOr.ret
        (some (reference_mid + median_claim (c.collect_valid_offsets now_ms))) := by
      simp [FairPriceCalculator.get_fair_price, FairPriceCalculator.get_median_offset,
        hlt, compute_median_eq_median_claim _ hne]
    refine ⟨by simp [e], ?_, ?_⟩
    · rw [e]
      simp [hcount, hlt]
    · intro v hv
      rw [e] at hv
      have : reference_mid + median_claim (c.collect_valid_offsets now_ms) = v := by
        simpa using hv
      exact this.symm

/-- C3 witness: one valid sample with offset 5 at reference mid 100 yields
the fair price 105, which is the reference plus the claimed median. -/
theorem get_fair_price_spec_witness :
    (105 : ℚ) = 100 + median_claim (FairPriceCalculator.collect_valid_offsets
      { config := { window_ms := 300000, min_samples := 1 },
        samples := [{ offset := 5, second := 1 }], head := 1, count := 1,
        last_second := 1 } 2000) := by
  have hsome : FairPriceCalculator.get_fair_price
      { config := { window_ms := 300000, min_samples := 1 },
        samples := [{ offset := 5, second := 1 }], head := 1, count := 1,
        last_second := 1 } 100 2000 = PanicOr.ret (some 105) := by
    norm_num [FairPriceCalculator.get_fair_price, FairPriceCalculator.get_median_offset,
      FairPriceCalculator.collect_valid_offsets, cutoff_second, compute_median,
      List.insertionSort, List.orderedInsert]
  exact (get_fair_price_spec
    { config := { window_ms := 300000, min_samples := 1 },
      samples := [{ offset := 5, second := 1 }], head := 1, count := 1,
      last_second := 1 } 100 2000 (by decide)).2.2 105 hsome

/-- C9: `add_sample(local, reference, now_ms)` records exactly one offset
sample `(local - reference)` keyed by second `now_ms / 1000` iff
`now_ms / 1000 > last_second` (updating `last_second` to that second, the
valid count by one up to capacity, and advancing the ring head); otherwise
the entire calculator state is unchanged — so of two calls within the same
wall-clock second only the first is retained (third conjunct, which needs
no well-formedness).  The well-formedness hypotheses hold for every
reachable state: the buffer never exceeds `MAX_SAMPLES` and the head wraps
modulo `MAX_SAMPLES`. -/
theorem add_sample_spec (c : FairPriceCalculator) (local_mid reference_mid : ℚ)
    (now_ms : ℕ) (hlen : c.samples.length ≤ MAX_SAMPLES)
    (hhead : c.head < MAX_SAMPLES) (hcount : c.count ≤ MAX_SAMPLES) :
    (now_ms / 1000 ≤ c.last_second →
      c.add_sample local_mid reference_mid now_ms = c) ∧
    (c.last_second < now_ms / 1000 →
      (c.add_sample local_mid reference_mid now_ms).last_second = now_ms / 1000 ∧
      (c.add_sample local_mid reference_mid now_ms).count =
        min (c.count + 1) MAX_SAMPLES ∧
      (c.add_sample local_mid reference_mid now_ms).samples.length =
        min (c.samples.length + 1) MAX_SAMPLES ∧
      ({ offset := local_mid - reference_mid, second := now_ms / 1000 } : OffsetSample) ∈
        (c.add_sample local_mid reference_mid now_ms).samples ∧
      (c.add_sample local_mid reference_mid now_ms).config = c.config ∧
      (c.add_sample local_mid reference_mid now_ms).head =
        (c.head + 1) % MAX_SAMPLES) ∧
    (∀ l2 r2 now2, now2 / 1000 = now_ms / 1000 →
      (c.add_sample local_mid reference_mid now_ms).add_sample l2 r2 now2 =
        c.add_sample local_mid reference_mid now_ms) := by
  refine ⟨?_, ?_, ?_⟩
  · intro h
    simp [FairPriceCalculator.add_sample, h]
  · intro h
    have hnot : ¬ now_ms / 1000 ≤ c.last_second := not_le.mpr h
    have hdef : c.add_sample local_mid reference_mid now_ms =
        { c with
          last_second := now_ms / 1000
          samples :=
            if c.samples.length < MAX_SAMPLES then
              c.samples ++ [{ offset := local_mid - reference_mid, second := now_ms / 1000 }]
            else c.samples.set c.head
              { offset := local_mid - reference_mid, second := now_ms / 1000 }
          head := (c.head + 1) % MAX_SAMPLES
          count := if c.count < MAX_SAMPLES then c.count + 1 else c.count } := by
      simp [FairPriceCalculator.add_sample, hnot]
    rw [hdef]
    refine ⟨rfl, ?_, ?_, ?_, rfl, rfl⟩
    · show (if c.count < MAX_SAMPLES then c.count + 1 else c.count) =
        min (c.count + 1) MAX_SAMPLES
      split <;> omega
    · show (if c.samples.length < MAX_SAMPLES then _ else _ : List OffsetSample).length = _
      split
      · next hlt => simp; omega
      · next hge =>
          simp only [List.length_set]
          omega
    · show _ ∈ (if c.samples.length < MAX_SAMPLES then _ else _ : List OffsetSample)
      split
      · next hlt => simp
      · next hge =>
          have hin : c.head < c.samples.length := by omega
          exact List.mem_set c.samples c.head hin _
  · intro l2 r2 now2 heq
    by_cases h1 : now_ms / 1000 ≤ c.last_second
    · have e : c.add_sample local_mid reference_mid now_ms = c := by
        simp [FairPriceCalculator.add_sample, h1]
      rw [e]
      simp [FairPriceCalculator.add_sample, heq ▸ h1]
    · have hnot := h1
      simp only [FairPriceCalculator.add_sample, if_neg hnot]
      have : now2 / 1000 ≤ now_ms / 1000 := le_of_eq heq
      simp [FairPriceCalculator.add_sample, this]

/-- C9 witness: recording into an empty calculator at `now_ms = 5500` sets
`last_second` to 5 and stores the offset sample for second 5. -/
theorem add_sample_spec_witness :
    (FairPriceCalculator.add_sample
        { config := { window_ms := 300000, min_samples := 1 }, samples := [],
          head := 0, count := 0, last_second := 0 } 105 100 5500).last_second =
      5500 / 1000 ∧
    ({ offset := 105 - 100, second := 5500 / 1000 } : OffsetSample) ∈
      (FairPriceCalculator.add_sample
        { config := { window_ms := 300000, min_samples := 1 }, samples := [],
          head := 0, count := 0, last_second := 0 } 105 100 5500).samples := by
  have h := add_sample_spec
    { config := { window_ms := 300000, min_samples := 1 }, samples := [],
      head := 0, count := 0, last_second := 0 } 105 100 5500
    (by decide) (by decide) (by decide)
  have hrec := h.2.1 (by norm_num)
  exact ⟨hrec.1, hrec.2.2.2.1⟩

/-! ## Orderbook side (`nord/src/orderbook.rs`)

The `BTreeMap<OrderedFloat<f64>, f64>` of a side is embedded as an
association list of `(price, size)` pairs kept strictly sorted by ascending
price — the map's iteration order — so `pop_first`/`pop_last` are
`tail`/`dropLast` and the best price is the head (asks) or last (bids). -/

/-- One orderbook entry from the WebSocket (`OrderbookEntry`). -/
structure OrderbookEntry where
  price : ℚ
  size : ℚ
deriving DecidableEq, Repr

/-- Embedding of `MAX_LEVELS`: maximum price levels kept per side. -/
def MAX_LEVELS : ℕ := 100

/-- Embedding of `BTreeMap::insert`: set the size at a price, keeping ascending order. -/
def insertLevel (price size : ℚ) : List (ℚ × ℚ) → List (ℚ × ℚ)
  | [] => [(price, size)]
  | (p, s) :: rest =>
      if price < p then (price, size) :: (p, s) :: rest
      else if price = p then (price, size) :: rest
      else (p, s) :: insertLevel price size rest

/-- Embedding of `BTreeMap::remove`: drop the level at a price, if present. -/
def removeLevel (price : ℚ) : List (ℚ × ℚ) → List (ℚ × ℚ)
  | [] => []
  | (p, s) :: rest => if price = p then rest else (p, s) :: removeLevel price rest

/-- Embedding of `OrderbookSide::trim`: while over capacity, pop the worst end —
highest price (`pop_last`, i.e. `dropLast`) for asks, lowest price
(`pop_first`, i.e. `tail`) for bids. -/
def trim (is_ask : Bool) (levels : List (ℚ × ℚ)) : List (ℚ × ℚ) :=
  if levels.length > MAX_LEVELS then
    trim is_ask (if is_ask then levels.dropLast else levels.tail)
  else levels
termination_by levels.length
decreasing_by
  rename_i h
  split <;> simp [List.length_dropLast, List.length_tail] <;> omega

/-- Embedding of `OrderbookSide::apply_deltas`: size zero removes the level, any other
size sets it; trim afterwards. -/
def OrderbookSide.apply_deltas (is_ask : Bool) (levels : List (ℚ × ℚ))
    (entries : List OrderbookEntry) : List (ℚ × ℚ) :=
  trim is_ask (entries.foldl
    (fun acc e => if e.size = 0 then removeLevel e.price acc
      else insertLevel e.price e.size acc) levels)

/-- Embedding of `OrderbookSide::set_snapshot`: clear, insert every entry with positive
size, trim. -/
def OrderbookSide.set_snapshot (is_ask : Bool)
    (entries : List OrderbookEntry) : List (ℚ × ℚ) :=
  trim is_ask (entries.foldl
    (fun acc e => if e.size > 0 then insertLevel e.price e.size acc else acc) [])

/-- Embedding of `OrderbookSide::get_best`: lowest price for asks (first key), highest
for bids (last key). -/
def OrderbookSide.get_best (is_ask : Bool) (levels : List (ℚ × ℚ)) : Option ℚ :=
  if is_ask then levels.head?.map Prod.fst else levels.getLast?.map Prod.fst

/-- A side reachable from a snapshot by a sequence of delta batches. -/
def OrderbookSide.run (is_ask : Bool) (snapshot : List OrderbookEntry)
    (deltas : List (List OrderbookEntry)) : List (ℚ × ℚ) :=
  deltas.foldl (OrderbookSide.apply_deltas is_ask)
    (OrderbookSide.set_snapshot is_ask snapshot)

/-- Strictly ascending prices: the `BTreeMap` key invariant. -/
def SortedLevels (levels : List (ℚ × ℚ)) : Prop :=
  levels.Pairwise (fun a b => a.1 < b.1)

/-- Members of `insertLevel` are the new pair or old members. -/
theorem mem_insertLevel (price size : ℚ) :
    ∀ (l : List (ℚ × ℚ)) (x : ℚ × ℚ), x ∈ insertLevel price size l →
      x = (price, size) ∨ x ∈ l := by
  intro l
  induction l with
  | nil =>
      intro x hx
      simp only [insertLevel] at hx
      exact Or.inl (List.mem_singleton.mp hx)
  | cons hd rest ih =>
      obtain ⟨p, sz⟩ := hd
      intro x hx
      simp only [insertLevel] at hx
      split at hx
      · rcases List.mem_cons.mp hx with h | h
        · exact Or.inl h
        · exact Or.inr h
      · split at hx
        · rcases List.mem_cons.mp hx with h | h
          · exact Or.inl h
          · exact Or.inr (List.mem_cons_of_mem _ h)
        · rcases List.mem_cons.mp hx with h | h
          · exact Or.inr (h ▸ List.mem_cons_self _ _)
          · rcases ih x h with h2 | h2
            · exact Or.inl h2
            · exact Or.inr (List.mem_cons_of_mem _ h2)

/-- Property: `insertLevel` preserves the ascending-key invariant. -/
theorem insertLevel_sorted (price size : ℚ) :
    ∀ (l : List (ℚ × ℚ)), SortedLevels l → SortedLevels (insertLevel price size l) := by
  intro l
  induction l with
  | nil =>
      intro _
      simp [insertLevel, SortedLevels]
  | cons hd rest ih =>
      obtain ⟨p, sz⟩ := hd
      intro hsort
      obtain ⟨hhead, htail⟩ := List.pairwise_cons.mp hsort
      simp only [insertLevel]
      split
      · next hlt =>
          refine List.pairwise_cons.mpr ⟨?_, hsort⟩
          intro y hy
          rcases List.mem_cons.mp hy with rfl | hy2
          · exact hlt
          · exact lt_trans hlt (hhead y hy2)
      · split
        · next heq =>
            refine List.pairwise_cons.mpr ⟨?_, htail⟩
            intro y hy
            exact heq ▸ hhead y hy
        · next hlt heq =>
            have hgt : p < price := by
              rcases lt_trichotomy price p with h | h | h
              · exact absurd h hlt
              · exact absurd h heq
              · exact h
            refine List.pairwise_cons.mpr ⟨?_, ih htail⟩
            intro y hy
            rcases mem_insertLevel price size rest y hy with rfl | hy2
            · exact hgt
            · exact hhead y hy2

/-- Property: `removeLevel` yields a sublist. -/
theorem removeLevel_sublist (price : ℚ) :
    ∀ (l : List (ℚ × ℚ)), List.Sublist (removeLevel price l) l := by
  intro l
  induction l with
  | nil => simp [removeLevel]
  | cons hd rest ih =>
      obtain ⟨p, sz⟩ := hd
      simp only [removeLevel]
      split
      · exact List.sublist_cons_self _ _
      · exact List.Sublist.cons₂ _ ih

/-- Property: `trim` yields a sublist. -/
theorem trim_sublist (is_ask : Bool) (levels : List (ℚ × ℚ)) :
    List.Sublist (trim is_ask levels) levels := by
  rw [trim]
  split
  · next h =>
      refine List.Sublist.trans (trim_sublist is_ask _) ?_
      split
      · exact List.dropLast_sublist _
      · exact List.tail_sublist _
  · exact List.Sublist.refl _
termination_by levels.length
decreasing_by
  split <;> simp [List.length_dropLast, List.length_tail] <;> omega

/-- Property: `trim` is the identity within capacity. -/
theorem trim_eq_self (is_ask : Bool) (levels : List (ℚ × ℚ))
    (h : levels.length ≤ MAX_LEVELS) : trim is_ask levels = levels := by
  rw [trim, if_neg]
  omega

/-- Property: `trim` caps the number of levels at `MAX_LEVELS`. -/
theorem trim_length (is_ask : Bool) (levels : List (ℚ × ℚ)) :
    (trim is_ask levels).length ≤ MAX_LEVELS := by
  rw [trim]
  split
  · exact trim_length is_ask _
  · next h => omega
termination_by levels.length
decreasing_by
  split <;> simp [List.length_dropLast, List.length_tail] <;> omega

/-- The side invariant: ascending keys plus a property of every stored
size. -/
def SideInv (P : ℚ → Prop) (levels : List (ℚ × ℚ)) : Prop :=
  SortedLevels levels ∧ ∀ pr ∈ levels, P pr.2

/-- Property: `SideInv` descends along sublists. -/
theorem sideInv_sublist {P : ℚ → Prop} {l1 l2 : List (ℚ × ℚ)}
    (h : List.Sublist l1 l2) (hinv : SideInv P l2) : SideInv P l1 :=
  ⟨List.Pairwise.sublist h hinv.1, fun pr hpr => hinv.2 pr (h.subset hpr)⟩

/-- Property: `SideInv` is preserved by inserting a size satisfying `P`. -/
theorem sideInv_insert {P : ℚ → Prop} (price size : ℚ) (hP : P size)
    {l : List (ℚ × ℚ)} (hinv : SideInv P l) :
    SideInv P (insertLevel price size l) := by
  refine ⟨insertLevel_sorted price size l hinv.1, ?_⟩
  intro pr hpr
  rcases mem_insertLevel price size l pr hpr with rfl | h
  · exact hP
  · exact hinv.2 pr h

/-- Property: `SideInv` is preserved by a delta batch whose nonzero sizes satisfy
`P`. -/
theorem apply_deltas_inv {P : ℚ → Prop} (is_ask : Bool) :
    ∀ (entries : List OrderbookEntry),
      (∀ e ∈ entries, e.size ≠ 0 → P e.size) →
      ∀ (l : List (ℚ × ℚ)), SideInv P l →
        SideInv P (OrderbookSide.apply_deltas is_ask l entries) := by
  have hfold : ∀ (entries : List OrderbookEntry),
      (∀ e ∈ entries, e.size ≠ 0 → P e.size) →
      ∀ (l : List (ℚ × ℚ)), SideInv P l →
        SideInv P (entries.foldl
          (fun acc e => if e.size = 0 then removeLevel e.price acc
            else insertLevel e.price e.size acc) l) := by
    intro entries
    induction entries with
    | nil => intro _ l h; exact h
    | cons e es ih =>
        intro he l h
        simp only [List.foldl_cons]
        by_cases hz : e.size = 0
        · rw [if_pos hz]
          exact ih (fun x hx => he x (List.mem_cons_of_mem _ hx)) _
            (sideInv_sublist (removeLevel_sublist e.price l) h)
        · rw [if_neg hz]
          exact ih (fun x hx => he x (List.mem_cons_of_mem _ hx)) _
            (sideInv_insert e.price e.size (he e (List.mem_cons_self e es) hz) h)
  intro entries he l h
  exact sideInv_sublist (trim_sublist is_ask _) (hfold entries he l h)

/-- A fresh snapshot satisfies `SideInv` for any property implied by
positivity. -/
theorem set_snapshot_inv {P : ℚ → Prop} (hP : ∀ sz : ℚ, 0 < sz → P sz)
    (is_ask : Bool) (entries : List OrderbookEntry) :
    SideInv P (OrderbookSide.set_snapshot is_ask entries) := by
  have hfold : ∀ (es : List OrderbookEntry) (l : List (ℚ × ℚ)), SideInv P l →
      SideInv P (es.foldl
        (fun acc e => if e.size > 0 then insertLevel e.price e.size acc else acc) l) := by
    intro es
    induction es with
    | nil => intro l h; exact h
    | cons e es2 ih =>
        intro l h
        simp only [List.foldl_cons]
        by_cases hz : e.size > 0
        · rw [if_pos hz]
          exact ih _ (sideInv_insert e.price e.size (hP e.size hz) h)
        · rw [if_neg hz]
          exact ih _ h
  exact sideInv_sublist (trim_sublist is_ask _)
    (hfold entries [] ⟨List.Pairwise.nil, by simp⟩)

/-- Every reachable side satisfies `SideInv` for any property implied by
positivity and guaranteed on the deltas' nonzero sizes. -/
theorem run_inv {P : ℚ → Prop} (hP : ∀ sz : ℚ, 0 < sz → P sz) (is_ask : Bool) :
    ∀ (deltas : List (List OrderbookEntry)),
      (∀ d ∈ deltas, ∀ e ∈ d, e.size ≠ 0 → P e.size) →
      ∀ (snapshot : List OrderbookEntry),
        SideInv P (OrderbookSide.run is_ask snapshot deltas) := by
  have haux : ∀ (deltas : List (List OrderbookEntry)),
      (∀ d ∈ deltas, ∀ e ∈ d, e.size ≠ 0 → P e.size) →
      ∀ (l : List (ℚ × ℚ)), SideInv P l →
        SideInv P (deltas.foldl (OrderbookSide.apply_deltas is_ask) l) := by
    intro deltas
    induction deltas with
    | nil => intro _ l h; exact h
    | cons d ds ih =>
        intro hd l h
        simp only [List.foldl_cons]
        exact ih (fun x hx => hd x (List.mem_cons_of_mem _ hx)) _
          (apply_deltas_inv is_ask d (hd d (List.mem_cons_self d ds)) l h)
  intro deltas hd snapshot
  exact haux deltas hd _ (set_snapshot_inv hP is_ask snapshot)

/-- A reachable side never exceeds `MAX_LEVELS`. -/
theorem run_length (is_ask : Bool) (snapshot : List OrderbookEntry)
    (deltas : List (List OrderbookEntry)) :
    (OrderbookSide.run is_ask snapshot deltas).length ≤ MAX_LEVELS := by
  induction deltas using List.reverseRecOn with
  | nil =>
      simp only [OrderbookSide.run, List.foldl_nil, OrderbookSide.set_snapshot]
      exact trim_length is_ask _
  | append_singleton ds d _ =>
      simp only [OrderbookSide.run, List.foldl_append, List.foldl_cons, List.foldl_nil,
        OrderbookSide.apply_deltas]
      exact trim_length is_ask _

/-- In a sorted side the head key bounds every key from below. -/
theorem head_le_of_sorted {l : List (ℚ × ℚ)} (hs : SortedLevels l)
    {pr : ℚ × ℚ} (hpr : pr ∈ l) {hd : ℚ × ℚ} (hhd : l.head? = some hd) :
    hd.1 ≤ pr.1 := by
  cases l with
  | nil => cases hpr
  | cons a t =>
      have ha : a = hd := by simpa using hhd
      subst ha
      rcases List.mem_cons.mp hpr with rfl | h
      · exact le_refl _
      · exact le_of_lt ((List.pairwise_cons.mp hs).1 pr h)

/-- In a sorted side the last key bounds every key from above. -/
theorem le_getLast_of_sorted :
    ∀ {l : List (ℚ × ℚ)}, SortedLevels l →
      ∀ pr ∈ l, ∀ lst : ℚ × ℚ, l.getLast? = some lst → pr.1 ≤ lst.1 := by
  intro l
  induction l with
  | nil => intro _ pr hpr; cases hpr
  | cons a t ih =>
      intro hs pr hpr lst hlst
      cases t with
      | nil =>
          have : a = lst := by simpa using hlst
          subst this
          rcases List.mem_cons.mp hpr with rfl | h
          · exact le_refl _
          · cases h
      | cons b t2 =>
          rw [List.getLast?_cons_cons] at hlst
          have hmem : lst ∈ b :: t2 := List.mem_of_getLast?_eq_some hlst
          rcases List.mem_cons.mp hpr with rfl | h
          · exact le_of_lt ((List.pairwise_cons.mp hs).1 lst hmem)
          · exact ih (List.pairwise_cons.mp hs).2 pr h lst hlst

/-- C4: for every snapshot and every sequence of delta batches, the side
holds at most `MAX_LEVELS = 100` levels, stores no level with size 0,
`get_best` returns a stored price bounding all stored prices (below for an
ask side, above for a bid side), and returns `none` exactly on the empty
side. -/
theorem orderbook_side_invariants (is_ask : Bool) (snapshot : List OrderbookEntry)
    (deltas : List (List OrderbookEntry)) :
    (OrderbookSide.run is_ask snapshot deltas).length ≤ MAX_LEVELS ∧
    (∀ pr ∈ OrderbookSide.run is_ask snapshot deltas, pr.2 ≠ 0) ∧
    (∀ b, OrderbookSide.get_best is_ask (OrderbookSide.run is_ask snapshot deltas) =
        some b →
      b ∈ (OrderbookSide.run is_ask snapshot deltas).map Prod.fst ∧
      ∀ pr ∈ OrderbookSide.run is_ask snapshot deltas,
        if is_ask then b ≤ pr.1 else pr.1 ≤ b) ∧
    (OrderbookSide.get_best is_ask (OrderbookSide.run is_ask snapshot deltas) = none ↔
      OrderbookSide.run is_ask snapshot deltas = []) := by
  have hwf := run_inv (P := fun sz => sz ≠ 0) (fun _ h => ne_of_gt h) is_ask deltas
    (fun _ _ _ _ h => h) snapshot
  refine ⟨run_length is_ask snapshot deltas, hwf.2, ?_, ?_⟩
  · intro b hb
    cases is_ask with
    | true =>
        have hb2 : (OrderbookSide.run true snapshot deltas).head?.map Prod.fst =
            some b := hb
        cases hhd : (OrderbookSide.run true snapshot deltas).head? with
        | none => rw [hhd] at hb2; cases hb2
        | some hd =>
            rw [hhd] at hb2
            have hfst : hd.1 = b := by simpa using hb2
            refine ⟨hfst ▸ List.mem_map_of_mem _ (List.mem_of_mem_head? (by simp [hhd])),
              ?_⟩
            intro pr hpr
            simpa [← hfst] using head_le_of_sorted hwf.1 hpr hhd
    | false =>
        have hb2 : (OrderbookSide.run false snapshot deltas).getLast?.map Prod.fst =
            some b := hb
        cases hlst : (OrderbookSide.run false snapshot deltas).getLast? with
        | none => rw [hlst] at hb2; cases hb2
        | some lst =>
            rw [hlst] at hb2
            have hfst : lst.1 = b := by simpa using hb2
            refine ⟨hfst ▸ List.mem_map_of_mem _ (List.mem_of_getLast?_eq_some hlst),
              ?_⟩
            intro pr hpr
            simpa [← hfst] using le_getLast_of_sorted hwf.1 pr hpr lst hlst
  · cases is_ask with
    | true => simp [OrderbookSide.get_best]
    | false => simp [OrderbookSide.get_best]

/-- C4 witness: ask side from snapshot `[(100,1),(90,2)]` and one delta
batch inserting `(95,1)`; the best ask 90 is a stored price. -/
theorem orderbook_side_invariants_witness :
    (OrderbookSide.run true [⟨100, 1⟩, ⟨90, 2⟩] [[⟨95, 1⟩]]).length ≤ MAX_LEVELS ∧
    ((90 : ℚ), (2 : ℚ)).2 ≠ 0 ∧
    (90 : ℚ) ∈ (OrderbookSide.run true [⟨100, 1⟩, ⟨90, 2⟩] [[⟨95, 1⟩]]).map Prod.fst := by
  have h := orderbook_side_invariants true [⟨100, 1⟩, ⟨90, 2⟩] [[⟨95, 1⟩]]
  have heval : OrderbookSide.run true [⟨100, 1⟩, ⟨90, 2⟩] [[⟨95, 1⟩]] =
      [(90, 2), (95, 1), (100, 1)] := by
    norm_num [OrderbookSide.run, OrderbookSide.set_snapshot, OrderbookSide.apply_deltas,
      insertLevel, removeLevel, trim_eq_self, MAX_LEVELS]
  have hbest : OrderbookSide.get_best true
      (OrderbookSide.run true [⟨100, 1⟩, ⟨90, 2⟩] [[⟨95, 1⟩]]) = some 90 := by
    rw [heval]
    rfl
  have hmem : ((90 : ℚ), (2 : ℚ)) ∈
      OrderbookSide.run true [⟨100, 1⟩, ⟨90, 2⟩] [[⟨95, 1⟩]] := by
    rw [heval]
    simp
  exact ⟨h.1, h.2.1 _ hmem, (h.2.2.1 90 hbest).1⟩

/-- C6 counterexample: a delta entry with negative size is inserted, not
rejected — the reachable ask side stores size `-1`. -/
theorem run_sizes_positive_counterexample :
    ((1 : ℚ), (-1 : ℚ)) ∈ OrderbookSide.run true [] [[⟨1, -1⟩]] ∧
    ¬ (0 : ℚ) < ((1 : ℚ), (-1 : ℚ)).2 := by
  have heval : OrderbookSide.run true [] [[⟨1, -1⟩]] = [(1, -1)] := by
    norm_num [OrderbookSide.run, OrderbookSide.set_snapshot, OrderbookSide.apply_deltas,
      insertLevel, removeLevel, trim_eq_self, MAX_LEVELS]
  constructor
  · rw [heval]
    simp
  · norm_num

/-- C6 (amended): every stored size is strictly positive provided every
delta entry carries a nonnegative size; `set_snapshot` filters non-positive
sizes, and `apply_deltas` removes zero sizes but inserts any nonzero size
as-is. -/
theorem run_sizes_positive (is_ask : Bool) (snapshot : List OrderbookEntry)
    (deltas : List (List OrderbookEntry))
    (hnn : ∀ d ∈ deltas, ∀ e ∈ d, 0 ≤ e.size) :
    ∀ pr ∈ OrderbookSide.run is_ask snapshot deltas, 0 < pr.2 :=
  (run_inv (P := fun sz => 0 < sz) (fun _ h => h) is_ask deltas
    (fun d hd e he hnz => lt_of_le_of_ne (hnn d hd e he) (Ne.symm hnz)) snapshot).2

/-- C6 witness: a bid side from a positive snapshot entry stores a positive
size. -/
theorem run_sizes_positive_witness :
    ((5 : ℚ), (2 : ℚ)) ∈ OrderbookSide.run false [⟨5, 2⟩] [] ∧
    (0 : ℚ) < ((5 : ℚ), (2 : ℚ)).2 := by
  have heval : OrderbookSide.run false [⟨5, 2⟩] [] = [(5, 2)] := by
    norm_num [OrderbookSide.run, OrderbookSide.set_snapshot, OrderbookSide.apply_deltas,
      insertLevel, removeLevel, trim_eq_self, MAX_LEVELS]
  have hmem : ((5 : ℚ), (2 : ℚ)) ∈ OrderbookSide.run false [⟨5, 2⟩] [] := by
    rw [heval]
    simp
  exact ⟨hmem, run_sizes_positive false [⟨5, 2⟩] [] (by simp) _ hmem⟩

/-! ## Mid-price emission (`nord/src/orderbook.rs`, `emit_price`) -/

/-- Embedding of `MidPrice`. -/
structure MidPrice where
  mid : ℚ
  bid : ℚ
  ask : ℚ
  timestamp : ℕ
deriving DecidableEq, Repr

/-- The two sides owned by the background task (`OrderbookInner`), the part
read by `emit_price`. -/
structure OrderbookInner where
  bids : List (ℚ × ℚ)
  asks : List (ℚ × ℚ)
deriving DecidableEq, Repr

/-- Embedding of `emit_price`: the `MidPrice` sent to the watch channel, if any
(`now_ms` stands for `epoch_millis()`; the unconditional depth emission
carries no claim content and is omitted). -/
def emit_price (inner : OrderbookInner) (now_ms : ℕ) : Option MidPrice :=
  match OrderbookSide.get_best false inner.bids, OrderbookSide.get_best true inner.asks with
  | some bid, some ask =>
      some { mid := (bid + ask) / 2, bid := bid, ask := ask, timestamp := now_ms }
  | _, _ => none

/-- C5 counterexample: a crossed book — bids loaded from a snapshot at 100,
asks built by a delta at 90 — emits a `MidPrice` whose best bid is not
below its best ask, so the claimed `best_bid < best_ask` invariant fails on
a reachable state. -/
theorem emit_price_crossed_counterexample :
    emit_price
      { bids := OrderbookSide.run false [⟨100, 1⟩] [],
        asks := OrderbookSide.run true [] [[⟨90, 1⟩]] } 0 =
      some { mid := 95, bid := 100, ask := 90, timestamp := 0 } ∧
    ¬ ((100 : ℚ) < 90) := by
  have hb : OrderbookSide.run false [⟨100, 1⟩] [] = [(100, 1)] := by
    norm_num [OrderbookSide.run, OrderbookSide.set_snapshot, OrderbookSide.apply_deltas,
      insertLevel, removeLevel, trim_eq_self, MAX_LEVELS]
  have ha : OrderbookSide.run true [] [[⟨90, 1⟩]] = [(90, 1)] := by
    norm_num [OrderbookSide.run, OrderbookSide.set_snapshot, OrderbookSide.apply_deltas,
      insertLevel, removeLevel, trim_eq_self, MAX_LEVELS]
  constructor
  · simp only [emit_price, hb, ha, OrderbookSide.get_best]
    norm_num
  · norm_num

/-- C5 (amended): `emit_price` emits exactly when both a best bid and a
best ask exist, and the emitted value carries those bests with
`mid = (bid + ask) / 2`; the code does not enforce `best_bid < best_ask`,
which can fail on a crossed book. -/
theorem emit_price_amended (inner : OrderbookInner) (now_ms : ℕ) :
    (∀ mp, emit_price inner now_ms = some mp →
      mp.mid = (mp.bid + mp.ask) / 2 ∧
      OrderbookSide.get_best false inner.bids = some mp.bid ∧
      OrderbookSide.get_best true inner.asks = some mp.ask) ∧
    ((emit_price inner now_ms).isSome ↔
      (OrderbookSide.get_best false inner.bids).isSome ∧
      (OrderbookSide.get_best true inner.asks).isSome) := by
  cases hb : OrderbookSide.get_best false inner.bids with
  | none =>
      cases ha : OrderbookSide.get_best true inner.asks <;>
        simp [emit_price, hb, ha]
  | some bid =>
      cases ha : OrderbookSide.get_best true inner.asks with
      | none => simp [emit_price, hb, ha]
      | some ask =>
          constructor
          · intro mp hmp
            simp only [emit_price, hb, ha, Option.some.injEq] at hmp
            rw [← hmp]
            exact ⟨rfl, rfl, rfl⟩
          · simp [emit_price, hb, ha]

/-- C5 witness: an uncrossed book (bid 100, ask 110) emits
`mid = (100 + 110) / 2` carrying the two bests. -/
theorem emit_price_amended_witness :
    ((105 : ℚ) = ((100 : ℚ) + 110) / 2) ∧
    OrderbookSide.get_best false (OrderbookSide.run false [⟨100, 1⟩] []) = some 100 ∧
    OrderbookSide.get_best true (OrderbookSide.run true [⟨110, 1⟩] []) = some 110 := by
  have hb : OrderbookSide.run false [⟨100, 1⟩] [] = [(100, 1)] := by
    norm_num [OrderbookSide.run, OrderbookSide.set_snapshot, OrderbookSide.apply_deltas,
      insertLevel, removeLevel, trim_eq_self, MAX_LEVELS]
  have ha : OrderbookSide.run true [⟨110, 1⟩] [] = [(110, 1)] := by
    norm_num [OrderbookSide.run, OrderbookSide.set_snapshot, OrderbookSide.apply_deltas,
      insertLevel, removeLevel, trim_eq_self, MAX_LEVELS]
  have hsome : emit_price
      { bids := OrderbookSide.run false [⟨100, 1⟩] [],
        asks := OrderbookSide.run true [⟨110, 1⟩] [] } 0 =
      some { mid := 105, bid := 100, ask := 110, timestamp := 0 } := by
    simp only [emit_price, hb, ha, OrderbookSide.get_best]
    norm_num
  have h := (emit_price_amended
    { bids := OrderbookSide.run false [⟨100, 1⟩] [],
      asks := OrderbookSide.run true [⟨110, 1⟩] [] } 0).1
    { mid := 105, bid := 100, ask := 110, timestamp := 0 } hsome
  exact ⟨h.1, h.2.1, h.2.2⟩

/-! ## Wire scaling (`nord/src/utils.rs`) -/

/-- Largest value of a `u64`. -/
def U64_MAX : ℕ := 2 ^ 64 - 1

/-- The error kind raised by `to_scaled_u64` (`NordError::Overflow`; the
formatted message is omitted). -/
inductive NordError
  | Overflow
deriving DecidableEq, Repr

/-- Model of `rust_decimal`'s `ToPrimitive::to_u64`: `None` for a negative value,
otherwise the fractional part is truncated (floor, as the value is
nonnegative) and the result must fit in a `u64`. -/
def dec_to_u64 (x : ℚ) : Option ℕ :=
  if x < 0 then none
  else if ⌊x⌋ ≤ (U64_MAX : ℤ) then some ⌊x⌋.toNat
  else none

/-- Embedding of `to_scaled_u64`: multiply by `10^decimals` and convert to `u64`,
`Overflow` when the conversion fails.  (`10u64.pow(decimals)` is exact for
every `decimals ≤ 19` reachable from market metadata.) -/
def to_scaled_u64 (x : ℚ) (decimals : ℕ) : Except NordError ℕ :=
  let scale : ℚ := (10 : ℚ) ^ decimals
  let scaled := x * scale
  match dec_to_u64 scaled with
  | some v => Except.ok v
  | none => Except.error NordError.Overflow

/-- C7 counterexample: the conversion truncates rather than rounds —
`to_scaled_u64(0.07, 1)` returns `Ok 0` although `round(0.07 × 10) = 1`
fits in a `u64`. -/
theorem to_scaled_u64_counterexample :
    to_scaled_u64 (7/100) 1 = Except.ok 0 ∧
    round ((7 : ℚ)/100 * 10 ^ 1) = 1 ∧ (0 : ℕ) ≠ 1 := by
  refine ⟨?_, ?_, by decide⟩
  · have hfl : ⌊(7 : ℚ)/100 * 10 ^ 1⌋ = 0 := by
      norm_num [Int.floor_eq_iff]
    simp only [to_scaled_u64, dec_to_u64]
    rw [if_neg (by norm_num), if_pos (by rw [hfl]; norm_num [U64_MAX]), hfl]
    rfl
  · norm_num [round_eq, Int.floor_eq_iff]

/-- C7 (amended): `to_scaled_u64(x, d)` returns the truncation
`⌊x × 10^d⌋` whenever `x ≥ 0` and that truncation fits in a `u64`, returns
`Overflow` exactly when `x < 0` or the truncation exceeds `u64::MAX`, and
agrees with `round(x × 10^d)` whenever `x × 10^d` is an integer (the case
of tick/lot-aligned inputs). -/
theorem to_scaled_u64_spec (x : ℚ) (d : ℕ) :
    (0 ≤ x → ⌊x * 10 ^ d⌋ ≤ (U64_MAX : ℤ) →
      to_scaled_u64 x d = Except.ok ⌊x * 10 ^ d⌋.toNat) ∧
    (x < 0 → to_scaled_u64 x d = Except.error NordError.Overflow) ∧
    ((U64_MAX : ℤ) < ⌊x * 10 ^ d⌋ →
      to_scaled_u64 x d = Except.error NordError.Overflow) ∧
    (∀ k : ℤ, x * 10 ^ d = (k : ℚ) → 0 ≤ k → k ≤ (U64_MAX : ℤ) →
      to_scaled_u64 x d = Except.ok (round (x * 10 ^ d)).toNat) := by
  refine ⟨?_, ?_, ?_, ?_⟩
  · intro hx hfit
    have hnn : ¬ x * 10 ^ d < 0 := by
      push_neg
      positivity
    simp only [to_scaled_u64, dec_to_u64, if_neg hnn, if_pos hfit]
  · intro hx
    have hneg : x * 10 ^ d < 0 := by
      have hp : (0 : ℚ) < 10 ^ d := by positivity
      exact mul_neg_of_neg_of_pos hx hp
    simp only [to_scaled_u64, dec_to_u64, if_pos hneg]
  · intro hbig
    simp only [to_scaled_u64, dec_to_u64]
    by_cases hneg : x * 10 ^ d < 0
    · rw [if_pos hneg]
    · rw [if_neg hneg, if_neg (not_le.mpr hbig)]
  · intro k hk hk0 hkmax
    have hx0 : ¬ x * 10 ^ d < 0 := by
      rw [hk]
      push_neg
      exact_mod_cast hk0
    have hfl : ⌊x * 10 ^ d⌋ = k := by
      rw [hk]
      exact Int.floor_intCast k
    have hrd : round (x * 10 ^ d) = k := by
      rw [hk]
      exact round_intCast k
    simp only [to_scaled_u64, dec_to_u64, if_neg hx0, hfl, hrd, if_pos hkmax]

/-- C7 witness: `to_scaled_u64(1.5, 2) = Ok 150`. -/
theorem to_scaled_u64_spec_witness :
    to_scaled_u64 (3/2) 2 = Except.ok 150 := by
  have h := (to_scaled_u64_spec (3/2) 2).1 (by norm_num)
    (by norm_num [U64_MAX, Int.floor_eq_iff])
  have hfl : ⌊(3 : ℚ)/2 * 10 ^ 2⌋ = 150 := by
    norm_num [Int.floor_eq_iff]
  rw [h, hfl]
  rfl

end Zo
